/-
Verification of the change-notification and subscription broadcast engine of
the graphene `database_api` (libraries/app/include/graphene/app/api.hpp).

The repository slice under verification declares the subscription registry
(`_subscriptions`, `_market_subscriptions`), the subscription operations
(`subscribe_to_objects`, `unsubscribe_from_objects`, `subscribe_to_market`,
`unsubscribe_from_market`, `cancel_all_subscriptions`), the change handlers
(`on_objects_changed`, `on_applied_block`) and the query `get_objects`.
Only `cancel_all_subscriptions` has its body in the header; the other bodies
live in a translation unit that is not part of the slice, so they are
modelled from the specification, as marked on each definition below.

Object ids, asset ids, callback identities and serialized values are opaque
in the engine; they are embedded as natural numbers.  A callback invocation
is recorded as a trace entry carrying the registry key it was made for, the
callback identity, and the argument delivered.
-/
import Mathlib

namespace GrapheneApp

/-- Opaque stable identifier of a versioned state entry. -/
abbrev ObjectId := Nat

/-- Identity of a delivery callback; callbacks are compared by identity. -/
abbrev CallbackId := Nat

/-- Opaque asset identifier. -/
abbrev AssetId := Nat

/-- Ordered pair of asset identifiers naming a market; orientation matters. -/
abbrev AssetPair := AssetId × AssetId

/-- Opaque serialized value (an `fc::variant`); `Option` models the null
variant used to signal deletion. -/
abbrev Value := Nat

/-- Insert-or-replace into an association map, the semantics of assignment
into a `std::map`: the first entry with the same key is replaced in place,
otherwise the new entry is appended. -/
def mapInsert {α β : Type} [DecidableEq α] (k : α) (v : β) : List (α × β) → List (α × β)
  | [] => [(k, v)]
  | (k2, v2) :: rest => if k2 = k then (k, v) :: rest else (k2, v2) :: mapInsert k v rest

/-- Lookup in an association map: value of the first entry with the key. -/
def lookupKey {α β : Type} [DecidableEq α] (k : α) : List (α × β) → Option β
  | [] => none
  | (k2, v) :: rest => if k2 = k then some v else lookupKey k rest

/-- Erase a key from an association map, the semantics of `std::map::erase`:
entries with the key are dropped, everything else is kept in order. -/
def eraseKey {α β : Type} [DecidableEq α] (k : α) : List (α × β) → List (α × β)
  | [] => []
  | (k2, v) :: rest => if k2 = k then eraseKey k rest else (k2, v) :: eraseKey k rest

/-- The keys of an association map. -/
def keysOf {α β : Type} (m : List (α × β)) : List α := m.map Prod.fst

/-- The `std::map` representation invariant: keys are pairwise distinct. -/
def nodupKeys {α β : Type} (m : List (α × β)) : Prop := (keysOf m).Nodup

instance {α β : Type} [DecidableEq α] (m : List (α × β)) : Decidable (nodupKeys m) :=
  inferInstanceAs (Decidable (keysOf m).Nodup)

/-- Number of entries carrying a given key. -/
def countKey {α β : Type} [DecidableEq α] (k : α) : List (α × β) → Nat
  | [] => 0
  | (k2, _) :: rest => (if k2 = k then 1 else 0) + countKey k rest

/-- Modelled from the spec: the body of `database_api::subscribe_to_objects`
is not in the slice (declared only, api.hpp line 185).  Per spec section 4.1
each id is mapped to the callback, inserting or replacing. -/
def subscribe_to_objects (cb : CallbackId) (ids : List ObjectId)
    (subs : List (ObjectId × CallbackId)) : List (ObjectId × CallbackId) :=
  ids.foldl (fun s i => mapInsert i cb s) subs

/-- Modelled from the spec: the body of `database_api::unsubscribe_from_objects`
is not in the slice (declared only, api.hpp line 191).  Per spec section 4.1
matching entries are removed and unknown ids are silently ignored. -/
def unsubscribe_from_objects (ids : List ObjectId)
    (subs : List (ObjectId × CallbackId)) : List (ObjectId × CallbackId) :=
  ids.foldl (fun s i => eraseKey i s) subs

/-- Modelled from the spec: the body of `database_api::subscribe_to_market`
is not in the slice (declared only, api.hpp line 201).  The registry key is
the ordered pair `(a, b)`, per the member type of `_market_subscriptions`. -/
def subscribe_to_market (cb : CallbackId) (a b : AssetId)
    (msubs : List (AssetPair × CallbackId)) : List (AssetPair × CallbackId) :=
  mapInsert (a, b) cb msubs

/-- Modelled from the spec: the body of `database_api::unsubscribe_from_market`
is not in the slice (declared only, api.hpp line 208).  The entry keyed by the
ordered pair `(a, b)` is removed; an unknown pair is silently ignored. -/
def unsubscribe_from_market (a b : AssetId)
    (msubs : List (AssetPair × CallbackId)) : List (AssetPair × CallbackId) :=
  eraseKey (a, b) msubs

/-- The subscription state of a `database_api` instance: the two registry
members declared at api.hpp lines 228 and 229. -/
structure Registry where
  _subscriptions : List (ObjectId × CallbackId)
  _market_subscriptions : List (AssetPair × CallbackId)

/-- `database_api::cancel_all_subscriptions`, body in the header (api.hpp
lines 214 and 215): both mappings are cleared before returning. -/
def cancel_all_subscriptions (_r : Registry) : Registry := ⟨[], []⟩

/-- Modelled from the spec: the body of `database_api::on_objects_changed`
is not in the slice (declared only, api.hpp line 222).  Per spec section 4.2
the round walks the registry snapshot, and for every subscribed key in the
ChangeSet fetches the current value and invokes the callback with it; the
trace records (key, callback, delivered value). -/
def on_objects_changed (subs : List (ObjectId × CallbackId)) (changed : List ObjectId)
    (fetch : ObjectId → Option Value) : List (ObjectId × CallbackId × Option Value) :=
  match subs with
  | [] => []
  | (k, cb) :: rest =>
      if k ∈ changed then (k, cb, fetch k) :: on_objects_changed rest changed fetch
      else on_objects_changed rest changed fetch

/-- The ordered group of market events affecting one asset pair: a stable
filter of the input sequence, per spec section 4.3. -/
def eventsFor (p : AssetPair) : List (AssetPair × Nat) → List Nat
  | [] => []
  | e :: rest => if e.1 = p then e.2 :: eventsFor p rest else eventsFor p rest

/-- Modelled from the spec: the body of `database_api::on_applied_block`
is not in the slice (declared only, api.hpp line 223).  Per spec section 4.3
the ordered (operation, result) list of the block is partitioned by affected
asset pair, and each subscribed pair whose group is nonempty receives one
invocation carrying its full ordered group; the trace records
(pair, callback, group). -/
def on_applied_block (msubs : List (AssetPair × CallbackId))
    (evs : List (AssetPair × Nat)) : List (AssetPair × CallbackId × List Nat) :=
  match msubs with
  | [] => []
  | (p, cb) :: rest =>
      if eventsFor p evs = [] then on_applied_block rest evs
      else (p, cb, eventsFor p evs) :: on_applied_block rest evs

/-- Modelled from the spec: `database_api::get_objects` (declared at api.hpp
line 54, body not in the slice).  Per its documented contract each id is
looked up in the store, a missing object yielding the null variant in its
position. -/
def get_objects (ids : List ObjectId) (fetch : ObjectId → Option Value)
    : List (Option Value) :=
  match ids with
  | [] => []
  | i :: rest => fetch i :: get_objects rest fetch

section MapLemmas

variable {α β : Type} [DecidableEq α]

theorem mem_eraseKey {k : α} {e : α × β} {m : List (α × β)} :
    e ∈ eraseKey k m ↔ e ∈ m ∧ e.1 ≠ k := by
  induction m with
  | nil => simp [eraseKey]
  | cons hd tl ih =>
    obtain ⟨k2, v⟩ := hd
    by_cases hk : k2 = k
    · subst hk
      rw [show eraseKey k2 ((k2, v) :: tl) = eraseKey k2 tl from by simp [eraseKey]]
      rw [ih]
      constructor
      · rintro ⟨he, hne⟩
        exact ⟨List.mem_cons_of_mem _ he, hne⟩
      · rintro ⟨he, hne⟩
        rcases List.mem_cons.mp he with he2 | he2
        · exact absurd (congrArg Prod.fst he2) hne
        · exact ⟨he2, hne⟩
    · simp only [eraseKey, if_neg hk, List.mem_cons, ih]
      constructor
      · rintro (he | ⟨he, hne⟩)
        · exact ⟨Or.inl he, by simp [he, hk]⟩
        · exact ⟨Or.inr he, hne⟩
      · rintro ⟨he | he, hne⟩
        · exact Or.inl he
        · exact Or.inr ⟨he, hne⟩

theorem lookupKey_eq_none_iff {k : α} {m : List (α × β)} :
    lookupKey k m = none ↔ ∀ v, (k, v) ∉ m := by
  induction m with
  | nil => simp [lookupKey]
  | cons hd tl ih =>
    obtain ⟨k2, v2⟩ := hd
    by_cases hk : k2 = k
    · subst hk
      constructor
      · intro h
        simp [lookupKey] at h
      · intro h
        exact absurd (List.mem_cons_self (k2, v2) tl) (h v2)
    · simp only [lookupKey, if_neg hk, ih, List.mem_cons]
      constructor
      · intro h v hv
        rcases hv with hv | hv
        · exact hk (congrArg Prod.fst hv).symm
        · exact h v hv
      · intro h v hv
        exact h v (Or.inr hv)

theorem mem_of_lookupKey_eq_some {k : α} {v : β} {m : List (α × β)} :
    lookupKey k m = some v → (k, v) ∈ m := by
  induction m with
  | nil => simp [lookupKey]
  | cons hd tl ih =>
    obtain ⟨k2, v2⟩ := hd
    by_cases hk : k2 = k
    · subst hk
      simp [lookupKey]
      intro h
      exact Or.inl h.symm
    · simp only [lookupKey, if_neg hk, List.mem_cons]
      intro h
      exact Or.inr (ih h)

theorem lookupKey_eq_some_of_mem {k : α} {v : β} {m : List (α × β)}
    (hnd : nodupKeys m) (hmem : (k, v) ∈ m) : lookupKey k m = some v := by
  induction m with
  | nil => simp at hmem
  | cons hd tl ih =>
    obtain ⟨k2, v2⟩ := hd
    rw [nodupKeys, keysOf] at hnd
    simp only [List.map_cons, List.nodup_cons] at hnd
    rcases List.mem_cons.mp hmem with he | he
    · obtain ⟨hk, hv⟩ := Prod.mk.injEq .. ▸ he
      simp [lookupKey, hk.symm, hv]
    · have hk : k2 ≠ k := by
        intro h
        subst h
        exact hnd.1 (List.mem_map.mpr ⟨(k2, v), he, rfl⟩)
      simp only [lookupKey, if_neg hk]
      exact ih hnd.2 he

theorem eraseKey_of_forall_ne {k : α} {m : List (α × β)}
    (h : ∀ e ∈ m, e.1 ≠ k) : eraseKey k m = m := by
  induction m with
  | nil => rfl
  | cons hd tl ih =>
    have hne : hd.1 ≠ k := h hd (List.mem_cons_self hd tl)
    have htl := ih (fun e he => h e (List.mem_cons_of_mem _ he))
    obtain ⟨k2, v2⟩ := hd
    simp [eraseKey, hne, htl]

theorem lookupKey_eraseKey_ne {k k2 : α} {m : List (α × β)} (h : k2 ≠ k) :
    lookupKey k2 (eraseKey k m) = lookupKey k2 m := by
  induction m with
  | nil => rfl
  | cons hd tl ih =>
    obtain ⟨k3, v3⟩ := hd
    by_cases hk : k3 = k
    · subst hk
      have : k3 ≠ k2 := fun hh => h hh.symm
      simp [eraseKey, lookupKey, this, ih]
    · by_cases hk2 : k3 = k2
      · subst hk2
        simp [eraseKey, hk, lookupKey]
      · simp [eraseKey, hk, lookupKey, hk2, ih]

theorem lookupKey_mapInsert_self {k : α} {v : β} {m : List (α × β)} :
    lookupKey k (mapInsert k v m) = some v := by
  induction m with
  | nil => simp [mapInsert, lookupKey]
  | cons hd tl ih =>
    obtain ⟨k2, v2⟩ := hd
    by_cases hk : k2 = k
    · simp [mapInsert, hk, lookupKey]
    · simp [mapInsert, hk, lookupKey, ih]

theorem lookupKey_mapInsert_ne {k k2 : α} {v : β} {m : List (α × β)} (h : k2 ≠ k) :
    lookupKey k2 (mapInsert k v m) = lookupKey k2 m := by
  induction m with
  | nil =>
    have : k ≠ k2 := fun hh => h hh.symm
    simp [mapInsert, lookupKey, this]
  | cons hd tl ih =>
    obtain ⟨k3, v3⟩ := hd
    by_cases hk : k3 = k
    · subst hk
      have : k3 ≠ k2 := fun hh => h hh.symm
      simp [mapInsert, lookupKey, this]
    · by_cases hk2 : k3 = k2
      · subst hk2
        simp [mapInsert, hk, lookupKey]
      · simp [mapInsert, hk, lookupKey, hk2, ih]

theorem mem_mapInsert_of_ne {k : α} {v : β} {e : α × β} {m : List (α × β)}
    (hmem : e ∈ mapInsert k v m) (hne : e.1 ≠ k) : e ∈ m := by
  induction m with
  | nil =>
    simp [mapInsert] at hmem
    exact absurd (congrArg Prod.fst hmem) hne
  | cons hd tl ih =>
    obtain ⟨k2, v2⟩ := hd
    by_cases hk : k2 = k
    · simp only [mapInsert, if_pos hk, List.mem_cons] at hmem
      rcases hmem with he | he
      · exact absurd (congrArg Prod.fst he) hne
      · exact List.mem_cons_of_mem _ he
    · simp only [mapInsert, if_neg hk, List.mem_cons] at hmem
      rcases hmem with he | he
      · exact he ▸ List.mem_cons_self _ _
      · exact List.mem_cons_of_mem _ (ih he)

theorem mapInsert_absorb {k : α} {v1 v2 : β} {m : List (α × β)} :
    mapInsert k v2 (mapInsert k v1 m) = mapInsert k v2 m := by
  induction m with
  | nil => simp [mapInsert]
  | cons hd tl ih =>
    obtain ⟨k2, v3⟩ := hd
    by_cases hk : k2 = k
    · simp [mapInsert, hk]
    · simp [mapInsert, hk, ih]

theorem keysOf_mapInsert_subset {k : α} {v : β} {m : List (α × β)} :
    keysOf (mapInsert k v m) ⊆ k :: keysOf m := by
  induction m with
  | nil => simp [mapInsert, keysOf]
  | cons hd tl ih =>
    obtain ⟨k2, v2⟩ := hd
    by_cases hk : k2 = k
    · simp [mapInsert, hk, keysOf, List.map_cons]
    · simp only [mapInsert, if_neg hk, keysOf, List.map_cons]
      intro x hx
      rcases List.mem_cons.mp hx with hx | hx
      · subst hx
        exact List.mem_cons_of_mem _ (List.mem_cons_self _ _)
      · rcases List.mem_cons.mp (ih hx) with hx | hx
        · exact hx ▸ List.mem_cons_self _ _
        · exact List.mem_cons_of_mem _ (List.mem_cons_of_mem _ hx)

theorem nodupKeys_mapInsert {k : α} {v : β} {m : List (α × β)}
    (h : nodupKeys m) : nodupKeys (mapInsert k v m) := by
  induction m with
  | nil => simp [mapInsert, nodupKeys, keysOf]
  | cons hd tl ih =>
    obtain ⟨k2, v2⟩ := hd
    rw [nodupKeys, keysOf] at h
    simp only [List.map_cons, List.nodup_cons] at h
    by_cases hk : k2 = k
    · subst hk
      rw [show mapInsert k2 v ((k2, v2) :: tl) = (k2, v) :: tl from by simp [mapInsert]]
      simp only [nodupKeys, keysOf, List.map_cons, List.nodup_cons]
      exact ⟨h.1, h.2⟩
    · simp only [mapInsert, if_neg hk, nodupKeys, keysOf, List.map_cons, List.nodup_cons]
      refine ⟨?_, ih h.2⟩
      intro hmem
      rcases List.mem_cons.mp (keysOf_mapInsert_subset hmem) with hx | hx
      · exact hk hx
      · exact h.1 hx

theorem countKey_eq_zero_of_not_mem {k : α} {m : List (α × β)}
    (h : k ∉ keysOf m) : countKey k m = 0 := by
  induction m with
  | nil => rfl
  | cons hd tl ih =>
    obtain ⟨k2, v2⟩ := hd
    rw [keysOf] at h
    simp only [List.map_cons, List.mem_cons] at h
    push_neg at h
    have hk : k2 ≠ k := fun hh => h.1 hh.symm
    simp only [countKey, if_neg hk]
    rw [ih h.2]

theorem countKey_mapInsert_self {k : α} {v : β} {m : List (α × β)}
    (h : nodupKeys m) : countKey k (mapInsert k v m) = 1 := by
  induction m with
  | nil => simp [mapInsert, countKey]
  | cons hd tl ih =>
    obtain ⟨k2, v2⟩ := hd
    rw [nodupKeys, keysOf] at h
    simp only [List.map_cons, List.nodup_cons] at h
    by_cases hk : k2 = k
    · subst hk
      rw [show mapInsert k2 v ((k2, v2) :: tl) = (k2, v) :: tl from by simp [mapInsert]]
      simp [countKey, countKey_eq_zero_of_not_mem h.1]
    · simp only [mapInsert, if_neg hk, countKey, if_neg hk]
      rw [ih h.2]

end MapLemmas

/-- Modelled from the spec: the failure handling of section 4.2 — the bodies
of the change handlers are not in the slice.  Every matched callback is
attempted regardless of how other invocations fare; the trace additionally
records whether the invocation faulted. -/
def attemptRound (subs : List (ObjectId × CallbackId)) (changed : List ObjectId)
    (fetch : ObjectId → Option Value) (fails : CallbackId → Bool)
    : List (ObjectId × CallbackId × Option Value × Bool) :=
  match subs with
  | [] => []
  | (k, cb) :: rest =>
      if k ∈ changed then (k, cb, fetch k, fails cb) :: attemptRound rest changed fetch fails
      else attemptRound rest changed fetch fails

/-- The keys whose callback invocation faulted during a round: subscribed,
matched by the ChangeSet, and reporting a delivery fault. -/
def failedKeys (subs : List (ObjectId × CallbackId)) (changed : List ObjectId)
    (fails : CallbackId → Bool) : List ObjectId :=
  match subs with
  | [] => []
  | (k, cb) :: rest =>
      if k ∈ changed ∧ fails cb = true then k :: failedKeys rest changed fails
      else failedKeys rest changed fails

/-- Modelled from the spec: auto-unsubscribe-on-failure (sections 4.2 and 9) —
after a round, the keys whose invocation faulted are removed through the
public unsubscribe operation. -/
def afterRound (subs : List (ObjectId × CallbackId)) (changed : List ObjectId)
    (fails : CallbackId → Bool) : List (ObjectId × CallbackId) :=
  unsubscribe_from_objects (failedKeys subs changed fails) subs

/-- State of the broadcast engine guarding `on_objects_changed` rounds:
`active` counts rounds currently dispatching, `pending` holds the coalesced
change data queued while a round runs (`_broadcast_changes_complete` in
api.hpp line 225 realizes the guard). -/
structure DispatchEngine where
  active : Nat
  pending : Option (List ObjectId)

/-- An event seen by the engine: a change event raised by the ledger, or the
completion of the round currently dispatching. -/
inductive ChangeEvent where
  | arrive (cs : List ObjectId)
  | complete

/-- Modelled from the spec: the IDLE, RUNNING, PENDING round state machine of
sections 4.2, 4.3 and 5 — the dispatch loop body is not in the slice.  A
change event starts a round only when none is active, otherwise its data is
coalesced into `pending`; on completion a pending batch starts the next
round at once. -/
def engineStep (s : DispatchEngine) : ChangeEvent → DispatchEngine
  | ChangeEvent.arrive cs =>
      if s.active = 0 then ⟨1, none⟩
      else ⟨s.active, some ((s.pending.getD []) ++ cs)⟩
  | ChangeEvent.complete =>
      if s.active = 0 then s
      else
        match s.pending with
        | some _ => ⟨s.active - 1 + 1, none⟩
        | none => ⟨s.active - 1, none⟩

/-- The engine state reached from the idle initial state after a sequence of
events. -/
def engineRun (es : List ChangeEvent) : DispatchEngine :=
  es.foldl engineStep ⟨0, none⟩

section EngineLemmas

theorem engineStep_active_le (s : DispatchEngine) (e : ChangeEvent)
    (h : s.active ≤ 1) : (engineStep s e).active ≤ 1 := by
  cases e with
  | arrive cs =>
    by_cases h0 : s.active = 0
    · simp [engineStep, h0]
    · simp [engineStep, h0]
      exact h
  | complete =>
    by_cases h0 : s.active = 0
    · simp [engineStep, h0]
    · cases hp : s.pending with
      | some cs => simp [engineStep, h0, hp]; omega
      | none => simp [engineStep, h0, hp]; omega

theorem foldl_engineStep_active_le (es : List ChangeEvent) (s : DispatchEngine)
    (h : s.active ≤ 1) : (es.foldl engineStep s).active ≤ 1 := by
  induction es generalizing s with
  | nil => exact h
  | cons e rest ih => exact ih (engineStep s e) (engineStep_active_le s e h)

end EngineLemmas

section DispatchLemmas

theorem mem_on_objects_changed {subs : List (ObjectId × CallbackId)}
    {cs : List ObjectId} {fetch : ObjectId → Option Value}
    {k : ObjectId} {cb : CallbackId} {v : Option Value} :
    (k, cb, v) ∈ on_objects_changed subs cs fetch ↔
      ((k, cb) ∈ subs ∧ k ∈ cs ∧ v = fetch k) := by
  induction subs with
  | nil => simp [on_objects_changed]
  | cons hd tl ih =>
    obtain ⟨k2, cb2⟩ := hd
    by_cases hk : k2 ∈ cs
    · simp only [on_objects_changed, if_pos hk, List.mem_cons, ih, Prod.mk.injEq]
      constructor
      · rintro (⟨h1, h2, h3⟩ | ⟨h1, h2, h3⟩)
        · subst h1; subst h2; subst h3
          exact ⟨Or.inl ⟨rfl, rfl⟩, hk, rfl⟩
        · exact ⟨Or.inr h1, h2, h3⟩
      · rintro ⟨h1 | h1, h2, h3⟩
        · obtain ⟨hka, hcb⟩ := h1
          subst hka; subst hcb
          exact Or.inl ⟨rfl, rfl, h3⟩
        · exact Or.inr ⟨h1, h2, h3⟩
    · simp only [on_objects_changed, if_neg hk, List.mem_cons, ih, Prod.mk.injEq]
      constructor
      · rintro ⟨h1, h2, h3⟩
        exact ⟨Or.inr h1, h2, h3⟩
      · rintro ⟨h1 | h1, h2, h3⟩
        · obtain ⟨hka, hcb⟩ := h1
          subst hka
          exact absurd h2 hk
        · exact ⟨h1, h2, h3⟩

theorem map_fst_on_objects_changed_sublist (subs : List (ObjectId × CallbackId))
    (cs : List ObjectId) (fetch : ObjectId → Option Value) :
    List.Sublist ((on_objects_changed subs cs fetch).map Prod.fst) (subs.map Prod.fst) := by
  induction subs with
  | nil => simp [on_objects_changed]
  | cons hd tl ih =>
    obtain ⟨k2, cb2⟩ := hd
    by_cases hk : k2 ∈ cs
    · simp only [on_objects_changed, if_pos hk, List.map_cons]
      exact ih.cons₂ k2
    · simp only [on_objects_changed, if_neg hk, List.map_cons]
      exact ih.cons k2

theorem mem_attemptRound {subs : List (ObjectId × CallbackId)}
    {cs : List ObjectId} {fetch : ObjectId → Option Value} {fails : CallbackId → Bool}
    {k : ObjectId} {cb : CallbackId} {v : Option Value} {b : Bool} :
    (k, cb, v, b) ∈ attemptRound subs cs fetch fails ↔
      ((k, cb) ∈ subs ∧ k ∈ cs ∧ v = fetch k ∧ b = fails cb) := by
  induction subs with
  | nil => simp [attemptRound]
  | cons hd tl ih =>
    obtain ⟨k2, cb2⟩ := hd
    by_cases hk : k2 ∈ cs
    · simp only [attemptRound, if_pos hk, List.mem_cons, ih, Prod.mk.injEq]
      constructor
      · rintro (⟨h1, h2, h3, h4⟩ | ⟨h1, h2, h3, h4⟩)
        · subst h1; subst h2; subst h3; subst h4
          exact ⟨Or.inl ⟨rfl, rfl⟩, hk, rfl, rfl⟩
        · exact ⟨Or.inr h1, h2, h3, h4⟩
      · rintro ⟨h1 | h1, h2, h3, h4⟩
        · obtain ⟨hka, hcb⟩ := h1
          subst hka; subst hcb
          exact Or.inl ⟨rfl, rfl, h3, h4⟩
        · exact Or.inr ⟨h1, h2, h3, h4⟩
    · simp only [attemptRound, if_neg hk, List.mem_cons, ih, Prod.mk.injEq]
      constructor
      · rintro ⟨h1, h2, h3, h4⟩
        exact ⟨Or.inr h1, h2, h3, h4⟩
      · rintro ⟨h1 | h1, h2, h3, h4⟩
        · obtain ⟨hka, hcb⟩ := h1
          subst hka
          exact absurd h2 hk
        · exact ⟨h1, h2, h3, h4⟩

theorem mem_failedKeys_of {subs : List (ObjectId × CallbackId)}
    {cs : List ObjectId} {fails : CallbackId → Bool} {k : ObjectId} {cb : CallbackId}
    (hmem : (k, cb) ∈ subs) (hk : k ∈ cs) (hf : fails cb = true) :
    k ∈ failedKeys subs cs fails := by
  induction subs with
  | nil => simp at hmem
  | cons hd tl ih =>
    obtain ⟨k2, cb2⟩ := hd
    rcases List.mem_cons.mp hmem with he | he
    · obtain ⟨hka, hcb⟩ := Prod.mk.injEq .. ▸ he
      subst hka; subst hcb
      rw [show failedKeys ((k, cb) :: tl) cs fails = k :: failedKeys tl cs fails from by
        simp only [failedKeys, if_pos (show k ∈ cs ∧ fails cb = true from ⟨hk, hf⟩)]]
      exact List.mem_cons_self _ _
    · by_cases hc : k2 ∈ cs ∧ fails cb2 = true
      · simp only [failedKeys, if_pos hc]
        exact List.mem_cons_of_mem _ (ih he)
      · simp only [failedKeys, if_neg hc]
        exact ih he

theorem mem_unsubscribe_from_objects {ids : List ObjectId}
    {subs : List (ObjectId × CallbackId)} {e : ObjectId × CallbackId} :
    e ∈ unsubscribe_from_objects ids subs ↔ (e ∈ subs ∧ e.1 ∉ ids) := by
  induction ids generalizing subs with
  | nil => simp [unsubscribe_from_objects]
  | cons i rest ih =>
    rw [show unsubscribe_from_objects (i :: rest) subs
          = unsubscribe_from_objects rest (eraseKey i subs) from rfl]
    rw [ih, mem_eraseKey]
    simp only [List.mem_cons]
    constructor
    · rintro ⟨⟨he, hne⟩, hni⟩
      exact ⟨he, fun hc => hc.elim hne hni⟩
    · rintro ⟨he, hni⟩
      exact ⟨⟨he, fun hc => hni (Or.inl hc)⟩, fun hc => hni (Or.inr hc)⟩

theorem unsubscribe_of_disjoint {ids : List ObjectId}
    {subs : List (ObjectId × CallbackId)}
    (h : ∀ e ∈ subs, e.1 ∉ ids) : unsubscribe_from_objects ids subs = subs := by
  induction ids generalizing subs with
  | nil => rfl
  | cons i rest ih =>
    rw [show unsubscribe_from_objects (i :: rest) subs
          = unsubscribe_from_objects rest (eraseKey i subs) from rfl]
    rw [eraseKey_of_forall_ne (fun e he => fun hc =>
      h e he (hc ▸ List.mem_cons_self i rest))]
    exact ih (fun e he => fun hc => h e he (List.mem_cons_of_mem _ hc))

end DispatchLemmas

section MarketLemmas

theorem eventsFor_sublist (p : AssetPair) (evs : List (AssetPair × Nat)) :
    List.Sublist (eventsFor p evs) (evs.map Prod.snd) := by
  induction evs with
  | nil => simp [eventsFor]
  | cons e rest ih =>
    by_cases hp : e.1 = p
    · simp only [eventsFor, if_pos hp, List.map_cons]
      exact ih.cons₂ e.2
    · simp only [eventsFor, if_neg hp, List.map_cons]
      exact ih.cons e.2

theorem mem_on_applied_block {msubs : List (AssetPair × CallbackId)}
    {evs : List (AssetPair × Nat)} {p : AssetPair} {cb : CallbackId} {g : List Nat} :
    (p, cb, g) ∈ on_applied_block msubs evs ↔
      ((p, cb) ∈ msubs ∧ g = eventsFor p evs ∧ g ≠ []) := by
  induction msubs with
  | nil => simp [on_applied_block]
  | cons hd tl ih =>
    obtain ⟨p2, cb2⟩ := hd
    by_cases hg : eventsFor p2 evs = []
    · simp only [on_applied_block, if_pos hg, ih, List.mem_cons, Prod.mk.injEq]
      constructor
      · rintro ⟨h1, h2, h3⟩
        exact ⟨Or.inr h1, h2, h3⟩
      · rintro ⟨h1 | h1, h2, h3⟩
        · obtain ⟨hp, hcb⟩ := h1
          subst hp
          exact absurd (h2.symm ▸ hg) h3
        · exact ⟨h1, h2, h3⟩
    · simp only [on_applied_block, if_neg hg, List.mem_cons, ih, Prod.mk.injEq]
      constructor
      · rintro (⟨h1, h2, h3⟩ | ⟨h1, h2, h3⟩)
        · subst h1; subst h2; subst h3
          exact ⟨Or.inl ⟨rfl, rfl⟩, rfl, hg⟩
        · exact ⟨Or.inr h1, h2, h3⟩
      · rintro ⟨h1 | h1, h2, h3⟩
        · obtain ⟨hp, hcb⟩ := h1
          subst hp; subst hcb
          exact Or.inl ⟨rfl, rfl, h2⟩
        · exact Or.inr ⟨h1, h2, h3⟩

theorem map_fst_on_applied_block_sublist (msubs : List (AssetPair × CallbackId))
    (evs : List (AssetPair × Nat)) :
    List.Sublist ((on_applied_block msubs evs).map Prod.fst) (msubs.map Prod.fst) := by
  induction msubs with
  | nil => simp [on_applied_block]
  | cons hd tl ih =>
    obtain ⟨p2, cb2⟩ := hd
    by_cases hg : eventsFor p2 evs = []
    · simp only [on_applied_block, if_pos hg, List.map_cons]
      exact ih.cons p2
    · simp only [on_applied_block, if_neg hg, List.map_cons]
      exact ih.cons₂ p2

end MarketLemmas

/-- C1: during one broadcast round over ChangeSet `cs` against the registry
snapshot `subs`, the invocations are exactly those of the callbacks of the
keys in the intersection of `cs` with the subscribed object-id keys — no
callback outside that set fires, and every callback in that set fires
exactly once, with the fetched value. -/
theorem objects_changed_round_exact (subs : List (ObjectId × CallbackId))
    (cs : List ObjectId) (fetch : ObjectId → Option Value) (h : nodupKeys subs) :
    (∀ k cb v, (k, cb, v) ∈ on_objects_changed subs cs fetch ↔
        (k ∈ cs ∧ lookupKey k subs = some cb ∧ v = fetch k)) ∧
    ((on_objects_changed subs cs fetch).map Prod.fst).Nodup := by
  constructor
  · intro k cb v
    rw [mem_on_objects_changed]
    constructor
    · rintro ⟨h1, h2, h3⟩
      exact ⟨h2, lookupKey_eq_some_of_mem h h1, h3⟩
    · rintro ⟨h1, h2, h3⟩
      exact ⟨mem_of_lookupKey_eq_some h2, h1, h3⟩
  · exact List.Nodup.sublist (map_fst_on_objects_changed_sublist subs cs fetch) h

theorem objects_changed_round_exact_witness :
    nodupKeys ([(1, 10), (2, 20)] : List (ObjectId × CallbackId)) ∧
    ((on_objects_changed [(1, 10), (2, 20)] [1, 3]
        (fun _ => (none : Option Value))).map Prod.fst).Nodup :=
  ⟨by decide, (objects_changed_round_exact [(1, 10), (2, 20)] [1, 3]
      (fun _ => none) (by decide)).2⟩

/-- C2: at most one broadcast round is active at a time, over every sequence
of change events; a change event arriving while a round runs does not start
dispatching a second round — its data is queued as pending instead. -/
theorem broadcast_rounds_never_concurrent :
    (∀ es, (engineRun es).active ≤ 1) ∧
    (∀ es cs, (engineRun es).active = 1 →
      (engineStep (engineRun es) (ChangeEvent.arrive cs)).active = 1 ∧
      (engineStep (engineRun es) (ChangeEvent.arrive cs)).pending ≠ none) := by
  constructor
  · intro es
    exact foldl_engineStep_active_le es ⟨0, none⟩ (by simp)
  · intro es cs h1
    have h0 : ¬(engineRun es).active = 0 := by
      rw [h1]
      exact Nat.one_ne_zero
    constructor
    · simp [engineStep, h0, h1]
    · simp [engineStep, h0]

theorem broadcast_rounds_never_concurrent_witness :
    (engineRun [ChangeEvent.arrive [5]]).active = 1 ∧
    (engineStep (engineRun [ChangeEvent.arrive [5]]) (ChangeEvent.arrive [6])).active = 1 :=
  ⟨by decide, (broadcast_rounds_never_concurrent.2 [ChangeEvent.arrive [5]] [6]
      (by decide)).1⟩

/-- C3: `cancel_all_subscriptions` empties both the object-subscription
mapping and the market-subscription mapping, and afterwards any change
event — object or market — produces zero callback invocations. -/
theorem cancel_all_subscriptions_clears_and_silences (r : Registry) :
    (cancel_all_subscriptions r)._subscriptions = [] ∧
    (cancel_all_subscriptions r)._market_subscriptions = [] ∧
    (∀ cs fetch, on_objects_changed (cancel_all_subscriptions r)._subscriptions cs fetch = []) ∧
    (∀ evs, on_applied_block (cancel_all_subscriptions r)._market_subscriptions evs = []) :=
  ⟨rfl, rfl, fun _ _ => rfl, fun _ => rfl⟩

/-- C4: the market aggregator stably partitions the ordered (operation,
result) sequence of one block by affected asset pair — each group preserves
the original relative order — and each subscribed pair whose group is
nonempty receives exactly one invocation carrying its full ordered group. -/
theorem applied_block_market_groups (msubs : List (AssetPair × CallbackId))
    (evs : List (AssetPair × Nat)) (h : nodupKeys msubs) :
    (∀ p cb g, (p, cb, g) ∈ on_applied_block msubs evs ↔
        ((p, cb) ∈ msubs ∧ g = eventsFor p evs ∧ g ≠ [])) ∧
    ((on_applied_block msubs evs).map Prod.fst).Nodup ∧
    (∀ p, List.Sublist (eventsFor p evs) (evs.map Prod.snd)) := by
  refine ⟨fun p cb g => mem_on_applied_block, ?_, fun p => eventsFor_sublist p evs⟩
  exact List.Nodup.sublist (map_fst_on_applied_block_sublist msubs evs) h

theorem applied_block_market_groups_witness :
    nodupKeys ([((0, 1), 10), ((2, 3), 20)] : List (AssetPair × CallbackId)) ∧
    on_applied_block [((0, 1), 10), ((2, 3), 20)]
        [((0, 1), 1), ((2, 3), 2), ((0, 1), 3)]
      = [((0, 1), 10, [1, 3]), ((2, 3), 20, [2])] ∧
    List.Sublist (eventsFor (0, 1) [((0, 1), 1), ((2, 3), 2), ((0, 1), 3)])
      (([((0, 1), 1), ((2, 3), 2), ((0, 1), 3)] : List (AssetPair × Nat)).map Prod.snd) :=
  ⟨by decide, by decide,
    (applied_block_market_groups [((0, 1), 10), ((2, 3), 20)]
      [((0, 1), 1), ((2, 3), 2), ((0, 1), 3)] (by decide)).2.2 (0, 1)⟩

/-- C5: a failing callback invocation does not abort delivery to the other
matched subscribers of the same round — every matched callback is still
attempted — and the failing key is removed from the registry by the
auto-unsubscribe policy, so its callback cannot fire on any later round. -/
theorem callback_failure_isolated_and_removed (subs : List (ObjectId × CallbackId))
    (cs : List ObjectId) (fetch : ObjectId → Option Value) (fails : CallbackId → Bool)
    (k : ObjectId) (cb : CallbackId)
    (hmem : (k, cb) ∈ subs) (hk : k ∈ cs) (hf : fails cb = true) :
    (∀ k2 cb2, (k2, cb2) ∈ subs → k2 ∈ cs →
        (k2, cb2, fetch k2, fails cb2) ∈ attemptRound subs cs fetch fails) ∧
    lookupKey k (afterRound subs cs fails) = none ∧
    (∀ cs2 fetch2 v, (k, cb, v) ∉ on_objects_changed (afterRound subs cs fails) cs2 fetch2) := by
  have hfk : k ∈ failedKeys subs cs fails := mem_failedKeys_of hmem hk hf
  refine ⟨?_, ?_, ?_⟩
  · intro k2 cb2 h1 h2
    exact mem_attemptRound.mpr ⟨h1, h2, rfl, rfl⟩
  · rw [lookupKey_eq_none_iff]
    intro v hv
    simp only [afterRound] at hv
    exact (mem_unsubscribe_from_objects.mp hv).2 hfk
  · intro cs2 fetch2 v hv
    obtain ⟨h1, _, _⟩ := mem_on_objects_changed.mp hv
    simp only [afterRound] at h1
    exact (mem_unsubscribe_from_objects.mp h1).2 hfk

theorem callback_failure_isolated_and_removed_witness :
    ((1, 10) ∈ ([(1, 10), (2, 20)] : List (ObjectId × CallbackId))) ∧
    lookupKey 1 (afterRound [(1, 10), (2, 20)] [1, 2] (fun c => c == 10)) = none :=
  ⟨by decide, (callback_failure_isolated_and_removed [(1, 10), (2, 20)] [1, 2]
      (fun _ => none) (fun c => c == 10) 1 10 (by decide) (by decide) (by decide)).2.1⟩

/-- C6: subscribing is last-write-wins — after subscribing `cb1` and then
`cb2` on the same key the registry holds exactly one subscription for the
key, mapping to `cb2`, the double subscribe equals the single one, and every
round whose ChangeSet contains the key invokes `cb2` and nothing else for
that key. -/
theorem subscribe_last_write_wins (subs : List (ObjectId × CallbackId))
    (k : ObjectId) (cb1 cb2 : CallbackId) (h : nodupKeys subs) :
    subscribe_to_objects cb2 [k] (subscribe_to_objects cb1 [k] subs)
        = subscribe_to_objects cb2 [k] subs ∧
    countKey k (subscribe_to_objects cb2 [k] (subscribe_to_objects cb1 [k] subs)) = 1 ∧
    lookupKey k (subscribe_to_objects cb2 [k] (subscribe_to_objects cb1 [k] subs)) = some cb2 ∧
    (∀ cs fetch, k ∈ cs → (k, cb2, fetch k) ∈
        on_objects_changed
          (subscribe_to_objects cb2 [k] (subscribe_to_objects cb1 [k] subs)) cs fetch) ∧
    (∀ cs fetch cb v, (k, cb, v) ∈
        on_objects_changed
          (subscribe_to_objects cb2 [k] (subscribe_to_objects cb1 [k] subs)) cs fetch
      → cb = cb2) := by
  have habs : subscribe_to_objects cb2 [k] (subscribe_to_objects cb1 [k] subs)
      = mapInsert k cb2 subs := mapInsert_absorb
  have hnd2 : nodupKeys (mapInsert k cb2 subs) := nodupKeys_mapInsert h
  refine ⟨habs, ?_, ?_, ?_, ?_⟩
  · rw [habs]
    exact countKey_mapInsert_self h
  · rw [habs]
    exact lookupKey_mapInsert_self
  · intro cs fetch hk
    rw [habs]
    exact mem_on_objects_changed.mpr
      ⟨mem_of_lookupKey_eq_some lookupKey_mapInsert_self, hk, rfl⟩
  · intro cs fetch cb v hv
    rw [habs] at hv
    obtain ⟨h1, _, _⟩ := mem_on_objects_changed.mp hv
    have h2 := lookupKey_eq_some_of_mem hnd2 h1
    rw [lookupKey_mapInsert_self] at h2
    exact (Option.some.inj h2).symm

theorem subscribe_last_write_wins_witness :
    nodupKeys ([] : List (ObjectId × CallbackId)) ∧
    lookupKey 1 (subscribe_to_objects 20 [1] (subscribe_to_objects 10 [1] []))
      = some 20 :=
  ⟨by decide, (subscribe_last_write_wins [] 1 10 20 (by decide)).2.2.1⟩

/-- C7: unsubscribing is idempotent and silently ignores absent keys — for
objects and for markets, removing twice equals removing once, and removing
keys that are not in the registry leaves it unchanged. -/
theorem unsubscribe_idempotent_and_silent (ids : List ObjectId)
    (subs : List (ObjectId × CallbackId)) (a b : AssetId)
    (m : List (AssetPair × CallbackId)) :
    unsubscribe_from_objects ids (unsubscribe_from_objects ids subs)
        = unsubscribe_from_objects ids subs ∧
    ((∀ i ∈ ids, lookupKey i subs = none) → unsubscribe_from_objects ids subs = subs) ∧
    unsubscribe_from_market a b (unsubscribe_from_market a b m)
        = unsubscribe_from_market a b m ∧
    (lookupKey (a, b) m = none → unsubscribe_from_market a b m = m) := by
  refine ⟨?_, ?_, ?_, ?_⟩
  · exact unsubscribe_of_disjoint (fun e he => (mem_unsubscribe_from_objects.mp he).2)
  · intro hids
    refine unsubscribe_of_disjoint (fun e he hi => ?_)
    exact (lookupKey_eq_none_iff.mp (hids e.1 hi)) e.2 he
  · show eraseKey (a, b) (unsubscribe_from_market a b m) = unsubscribe_from_market a b m
    exact eraseKey_of_forall_ne (fun e he => (mem_eraseKey.mp he).2)
  · intro hl
    show eraseKey (a, b) m = m
    refine eraseKey_of_forall_ne (fun e he hp => ?_)
    refine (lookupKey_eq_none_iff.mp hl) e.2 ?_
    rw [← hp]
    exact he

theorem unsubscribe_idempotent_and_silent_witness :
    (∀ i ∈ ([5] : List ObjectId),
        lookupKey i ([(1, 10)] : List (ObjectId × CallbackId)) = none) ∧
    unsubscribe_from_objects [5] [(1, 10)] = [(1, 10)] :=
  ⟨by decide, (unsubscribe_idempotent_and_silent [5] [(1, 10)] 0 1 []).2.1 (by decide)⟩

/-- C8: market subscription keys are orientation-sensitive — for distinct
assets the pairs (A,B) and (B,A) are distinct keys, so subscribing under
(A,B) does not make the callback receive invocations keyed (B,A), and
unsubscribing (B,A) does not remove a subscription made under (A,B). -/
theorem market_subscription_orientation (A B : AssetId) (cb : CallbackId)
    (m : List (AssetPair × CallbackId)) (hne : A ≠ B) :
    lookupKey (B, A) (subscribe_to_market cb A B m) = lookupKey (B, A) m ∧
    lookupKey (A, B) (unsubscribe_from_market B A (subscribe_to_market cb A B m))
      = some cb ∧
    (∀ evs cb0 g,
        ((B, A), cb0, g) ∈ on_applied_block (subscribe_to_market cb A B m) evs →
        ((B, A), cb0) ∈ m) := by
  have hpair : ((B, A) : AssetPair) ≠ (A, B) := fun hc => hne (congrArg Prod.snd hc)
  have hpair2 : ((A, B) : AssetPair) ≠ (B, A) := fun hc => hne (congrArg Prod.fst hc)
  refine ⟨?_, ?_, ?_⟩
  · show lookupKey (B, A) (mapInsert (A, B) cb m) = lookupKey (B, A) m
    exact lookupKey_mapInsert_ne hpair
  · show lookupKey (A, B) (eraseKey (B, A) (mapInsert (A, B) cb m)) = some cb
    rw [lookupKey_eraseKey_ne hpair2]
    exact lookupKey_mapInsert_self
  · intro evs cb0 g hmem
    obtain ⟨h1, _, _⟩ := mem_on_applied_block.mp hmem
    exact mem_mapInsert_of_ne h1 hpair

theorem market_subscription_orientation_witness :
    (0 : AssetId) ≠ 1 ∧
    lookupKey ((0 : AssetId), (1 : AssetId))
        (unsubscribe_from_market 1 0 (subscribe_to_market 7 0 1 [])) = some 7 :=
  ⟨by decide, (market_subscription_orientation 0 1 7 [] (by decide)).2.1⟩

/-- C9: a subscribed key appearing in the ChangeSet always has its callback
invoked with the fetched value, and in particular when the fetch reports the
object deleted the callback still fires, receiving the null value. -/
theorem deleted_object_callback_still_fires (subs : List (ObjectId × CallbackId))
    (cs : List ObjectId) (fetch : ObjectId → Option Value) (k : ObjectId)
    (cb : CallbackId) (hmem : (k, cb) ∈ subs) (hk : k ∈ cs) :
    (k, cb, fetch k) ∈ on_objects_changed subs cs fetch ∧
    (fetch k = none → (k, cb, none) ∈ on_objects_changed subs cs fetch) := by
  refine ⟨mem_on_objects_changed.mpr ⟨hmem, hk, rfl⟩, fun hdel => ?_⟩
  exact mem_on_objects_changed.mpr ⟨hmem, hk, hdel.symm⟩

theorem deleted_object_callback_still_fires_witness :
    ((3, 9) ∈ ([(3, 9)] : List (ObjectId × CallbackId))) ∧
    (3, 9, (none : Option Value)) ∈ on_objects_changed [(3, 9)] [3] (fun _ => none) :=
  ⟨by decide, (deleted_object_callback_still_fires [(3, 9)] [3] (fun _ => none) 3 9
      (by decide) (by decide)).2 rfl⟩

/-- C10: `get_objects` returns one entry per requested id, in input order,
each position holding the corresponding object when it exists and the null
variant when the id maps to no object. -/
theorem get_objects_positionwise (ids : List ObjectId)
    (fetch : ObjectId → Option Value) :
    (get_objects ids fetch).length = ids.length ∧
    (∀ i : Nat, (get_objects ids fetch).get? i = (ids.get? i).map fetch) := by
  induction ids with
  | nil => exact ⟨rfl, fun i => by cases i <;> rfl⟩
  | cons a l ih =>
    refine ⟨?_, ?_⟩
    · rw [show get_objects (a :: l) fetch = fetch a :: get_objects l fetch from rfl]
      rw [List.length_cons, List.length_cons, ih.1]
    · intro i
      cases i with
      | zero => rfl
      | succ n =>
        rw [show get_objects (a :: l) fetch = fetch a :: get_objects l fetch from rfl]
        rw [List.get?_cons_succ, List.get?_cons_succ, ih.2 n]

end GrapheneApp
